import Mathlib

/-!
Verification of the SnapDataExplorer core (Rust, `src/src-tauri/src`)
against its natural-language specification.

Shallow embedding strategy: each Rust function relevant to a claim is
translated into an executable Lean definition over explicit state.
Timestamps are modelled as `Int` seconds (both the HTML and JSON parsers
produce whole-second timestamps, and `chrono::Duration::num_seconds`
truncates toward zero, so second-granularity `Int` arithmetic is exact).
`i32` arithmetic is modelled as `Int` with explicit two's-complement
wrapping where overflow can occur. Filesystem and SQL effects are
abstracted as explicit function parameters, and fallible operations
return `Except`/`Option` or record their outcome in the environment.
-/

namespace SnapExplorer

/-! ## Data model (`src/src-tauri/src/models.rs`) -/

/-- `models::ValidationStatus`. -/
inductive ValidationStatus where
  | Valid
  | Incomplete
  | Corrupted
  | Unknown
deriving DecidableEq, Repr

/-- `models::DownloadStatus`. -/
inductive DownloadStatus where
  | Pending
  | Downloading
  | Downloaded
  | Failed
deriving DecidableEq, Repr

/-- `models::Event`: one chat item. `timestamp` is UTC seconds as `Int`;
`media_references` are absolute paths (modelled as strings);
`metadata` is the optional JSON metadata blob as an opaque string. -/
structure Event where
  id : String
  timestamp : Int
  sender : String
  sender_name : Option String
  media_references : List String
  conversation_id : Option String
  content : Option String
  event_type : String
  metadata : Option String
deriving DecidableEq, Repr

/-- `models::Conversation`. -/
structure Conversation where
  id : String
  display_name : Option String
  participants : List String
  last_event_at : Option Int
  message_count : Int
  has_media : Bool
deriving DecidableEq, Repr

/-! ## Store connections (`db.rs`, `DatabaseManager::conn`)

The r2d2 pool's `get()` either yields a pooled connection or fails
(timeout / pool exhaustion); we model its result as `Option Conn` with
`none` for the acquisition failure. The Rust body is
`self.pool.get().expect("Database pool exhausted")`: on acquisition
failure it panics with that message; its return type
(`PooledConnection`) has no error channel at all. `ConnOutcome.err`
exists in the model only so that "returns an error value" is a
statable outcome; `conn` never produces it. -/

abbrev Conn := Nat

/-- Possible outcomes of `DatabaseManager::conn`. -/
inductive ConnOutcome where
  | ok : Conn → ConnOutcome
  | err : String → ConnOutcome
  | panicked : String → ConnOutcome
deriving DecidableEq, Repr

/-- `DatabaseManager::conn` (db.rs lines 45-47):
`self.pool.get().expect("Database pool exhausted")`. -/
def DatabaseManager.conn (poolGet : Option Conn) : ConnOutcome :=
  match poolGet with
  | some c => ConnOutcome.ok c
  | none => ConnOutcome.panicked "Database pool exhausted"

/-! ## Schema migrations (`db.rs`, `DatabaseManager::run_migrations`)

The schema state is modelled as the column-name lists of the `exports`
and `memories` tables; `pragma_table_info` probing becomes list
membership. `run_migrations` (db.rs lines 126-159) has exactly two
guarded migrations: add `source_type` to `exports`, and add the memory
download columns to `memories`. There is no `source_path` to
`source_paths` migration anywhere in db.rs; `initialize_schema` (lines
52-58) still creates the scalar `source_path` column, even though
`models::ExportSet` declares `source_paths : Vec<PathBuf>`. -/

/-- Column lists of the two tables touched by migrations. -/
structure TableSchema where
  exportsCols : List String
  memoriesCols : List String
deriving DecidableEq, Repr

/-- `DatabaseManager::run_migrations` (db.rs lines 126-159), acting on
the schema: add `source_type` if missing, then add the download
columns if `download_status` is missing. -/
def runMigrations (s : TableSchema) : TableSchema :=
  let s1 :=
    if "source_type" ∈ s.exportsCols then s
    else { s with exportsCols := s.exportsCols ++ ["source_type"] }
  if "download_status" ∈ s1.memoriesCols then s1
  else { s1 with memoriesCols := s1.memoriesCols ++ ["download_url", "proxy_url", "download_status"] }

/-- A legacy database created before the `source_type` and download
columns existed: `exports` has the scalar `source_path` column. -/
def legacySchema : TableSchema :=
  { exportsCols := ["id", "source_path", "creation_date", "validation_status"]
    memoriesCols := ["id", "timestamp", "media_type", "latitude", "longitude", "media_path", "export_id"] }

/-! ## Detector group validation (`ingestion/detector.rs`)

Each group member contributes three observed signatures: an index
document (`index.html`), a chat-history subtree, and a media subtree.
A zip part that fails to open contributes no signatures (all three
false). The folder variant additionally probes the member's parent
directory for `index.html` (the "siblings check"). -/

/-- Signatures observed in one zip group member
(`validate_zip_group` body, detector.rs lines 167-175). -/
structure ZipMemberSigs where
  hasIndex : Bool
  hasChat : Bool
  hasMedia : Bool
deriving DecidableEq, Repr

/-- Signatures observed in one folder group member
(`validate_folder_group` body, detector.rs lines 217-228). -/
structure FolderMemberSigs where
  hasIndex : Bool
  hasChat : Bool
  hasMedia : Bool
  parentHasIndex : Bool
deriving DecidableEq, Repr

/-- The flag-accumulation loop of `ExportDetector::validate_zip_group`
(detector.rs lines 162-186). -/
def validateZipGroup (members : List ZipMemberSigs) : ValidationStatus :=
  let hasIndex := members.any (·.hasIndex)
  let hasChat := members.any (·.hasChat)
  let hasMedia := members.any (·.hasMedia)
  if hasIndex && hasChat && hasMedia then ValidationStatus.Valid
  else if hasIndex then ValidationStatus.Incomplete
  else if !members.isEmpty then ValidationStatus.Incomplete
  else ValidationStatus.Unknown

/-- The flag-accumulation loop of `ExportDetector::validate_folder_group`
(detector.rs lines 212-239); the sibling check fires whether or not
`has_index` was already set by an earlier member, so the net effect is
a disjunction per member. -/
def validateFolderGroup (members : List FolderMemberSigs) : ValidationStatus :=
  let hasIndex := members.any (fun m => m.hasIndex || m.parentHasIndex)
  let hasChat := members.any (·.hasChat)
  let hasMedia := members.any (·.hasMedia)
  if hasIndex && hasChat && hasMedia then ValidationStatus.Valid
  else if hasIndex then ValidationStatus.Incomplete
  else if !members.isEmpty then ValidationStatus.Incomplete
  else ValidationStatus.Unknown

/-- The keep/drop decision of `ExportDetector::group_candidates`
(detector.rs lines 124-140): a group is pushed into the results iff
its unified validation status is not `Unknown`. -/
def groupKept (status : ValidationStatus) : Bool :=
  status ≠ ValidationStatus.Unknown

/-! ## Reconciliation of the JSON chat stream into the HTML stream
(`lib.rs`, `reconstruct_from_path`, lines 250-288)

State: the accumulated `all_events` and `all_conversations` lists.
For each JSON event the loop searches `all_events` (in order) for the
first event with the same conversation key, the same sender, a
timestamp delta whose absolute value is at most 2 seconds, and no
metadata; if found, the JSON event's metadata is written onto it,
otherwise the JSON event is appended and a conversation is synthesized
when none with that key exists. The `conversation_title` extraction
from the metadata JSON (serde_json) is abstracted as the parameter
`extractTitle`. -/

structure MergeState where
  events : List Event
  convs : List Conversation
deriving DecidableEq, Repr

/-- The match predicate of the `iter_mut().find` closure
(lib.rs lines 253-258). -/
def matchesJson (convoKey : String) (jsonEvent : Event) (existing : Event) : Bool :=
  existing.conversation_id = some convoKey &&
  existing.sender = jsonEvent.sender &&
  (existing.timestamp - jsonEvent.timestamp).natAbs ≤ 2 &&
  existing.metadata = none

/-- Write `jsonEvent.metadata` onto the first matching event, returning
`none` when no event matches (the `find` + in-place mutation of
lib.rs lines 253-263). -/
def enrichFirst (convoKey : String) (jsonEvent : Event) : List Event → Option (List Event)
  | [] => none
  | e :: rest =>
      if matchesJson convoKey jsonEvent e then
        some ({ e with metadata := jsonEvent.metadata } :: rest)
      else
        (enrichFirst convoKey jsonEvent rest).map (e :: ·)

/-- The conversation synthesized for an unmatched JSON event
(lib.rs lines 275-282). -/
def synthConversation (extractTitle : Option String → Option String)
    (convoKey : String) (jsonEvent : Event) : Conversation :=
  { id := convoKey
    display_name := extractTitle jsonEvent.metadata
    participants := []
    last_event_at := some jsonEvent.timestamp
    message_count := 0
    has_media := false }

/-- One iteration of the reconciliation loop body
(lib.rs lines 252-286) for a single JSON event. -/
def applyJsonEvent (extractTitle : Option String → Option String)
    (st : MergeState) (convoKey : String) (jsonEvent : Event) : MergeState :=
  match enrichFirst convoKey jsonEvent st.events with
  | some evts => { st with events := evts }
  | none =>
      let convs :=
        if st.convs.any (·.id = convoKey) then st.convs
        else st.convs ++ [synthConversation extractTitle convoKey jsonEvent]
      { events := st.events ++ [jsonEvent], convs := convs }

/-- The full double loop over `json_conversations`
(lib.rs lines 250-288). -/
def mergeChatJson (extractTitle : Option String → Option String)
    (st : MergeState) (jsonConversations : List (String × List Event)) : MergeState :=
  jsonConversations.foldl
    (fun acc kv => kv.2.foldl (fun a j => applyJsonEvent extractTitle a kv.1 j) acc) st

/-! ## Zip extraction (`ingestion/extractor.rs`, `ZipExtractor::extract`)

An archive entry is a path (a list of components), a declared size, and
a directory flag (`file.name().ends_with('/')`). Paths are modelled
as component lists; `enclosed_name` is the zip crate's check: reject
NUL bytes (not modelled: component names are opaque strings), root or
prefix components, and any `..` that would take the running depth
below zero. The size accounting (extractor.rs lines 50-56) adds the
entry size *before* the safety check and aborts as soon as the total
exceeds the single hard cap `MAX_TOTAL_SIZE = 500 GiB` — the cap does
not depend on the number of parts. -/

/-- One component of an archive entry path. -/
inductive PComp where
  | root
  | parent
  | cur
  | normal : String → PComp
deriving DecidableEq, Repr

/-- Depth bookkeeping of the zip crate's `enclosed_name`: `root` (and
prefix) components are rejected outright, `..` is rejected when the
depth would go negative. -/
def encOk : Nat → List PComp → Bool
  | _, [] => true
  | _, PComp.root :: _ => false
  | d, PComp.parent :: rest =>
      match d with
      | 0 => false
      | Nat.succ d0 => encOk d0 rest
  | d, PComp.cur :: rest => encOk d rest
  | d, PComp.normal _ :: rest => encOk (d + 1) rest

/-- `ZipEntry::enclosed_name`: `some` of the (unchanged) path when the
depth check passes, `none` otherwise. -/
def enclosedName (cs : List PComp) : Option (List PComp) :=
  if encOk 0 cs then some cs else none

/-- Filesystem resolution of `base.join(path)`: `..` pops the last
component, an absolute path replaces the base entirely. -/
def resolveComps (acc : List String) : List PComp → List String
  | [] => acc
  | PComp.root :: rest => resolveComps [] rest
  | PComp.parent :: rest => resolveComps acc.dropLast rest
  | PComp.cur :: rest => resolveComps acc rest
  | PComp.normal s :: rest => resolveComps (acc ++ [s]) rest

/-- An archive entry: its raw path components, declared uncompressed
size (`file.size()`), and whether it is a directory entry. -/
structure ZipEntry where
  name : List PComp
  size : Nat
  isDir : Bool
deriving DecidableEq, Repr

/-- A filesystem action performed by the extractor: create a directory
or write a file, at a fully resolved path. -/
inductive FsAction where
  | mkdir : List String → FsAction
  | writeFile : List String → FsAction
deriving DecidableEq, Repr

/-- The resolved target path of an action. -/
def FsAction.path : FsAction → List String
  | FsAction.mkdir p => p
  | FsAction.writeFile p => p

/-- `MAX_TOTAL_SIZE` (extractor.rs line 28): 500 GiB, used for every
extraction regardless of how many parts the export has. -/
def MAX_TOTAL_SIZE : Nat := 500 * 1024 * 1024 * 1024

/-- The per-entry loop of `ZipExtractor::extract` (extractor.rs lines
45-94) over the already-flattened list of entries of all parts:
accumulate the running size total (the accumulation happens before
the cap check), abort with the validation error once the total
exceeds the cap, skip entries rejected by `enclosed_name`, and record
the directory-creation / file-write action for accepted entries. -/
def extractEntries (extractionPath : List String) :
    Nat → List ZipEntry → Except String (Nat × List FsAction)
  | total, [] => Except.ok (total, [])
  | total, e :: rest =>
      let t := total + e.size
      if t > MAX_TOTAL_SIZE then
        Except.error "Total extraction would exceed 500GB size limit."
      else
        match enclosedName e.name with
        | none => extractEntries extractionPath t rest
        | some p =>
            let outpath := resolveComps extractionPath p
            let act := if e.isDir then FsAction.mkdir outpath else FsAction.writeFile outpath
            (extractEntries extractionPath t rest).map (fun r => (r.1, act :: r.2))

/-- `ZipExtractor::extract` over the parts of an export: the working
directory is `target/<export_id>` and the running size total is shared
across all parts (extractor.rs lines 20-95). -/
def zipExtract (targetDir : List String) (exportId : String)
    (parts : List (List ZipEntry)) : Except String (Nat × List FsAction) :=
  extractEntries (targetDir ++ [exportId]) 0 parts.flatten

/-! ## Search sanitization (`db.rs`, `sanitize_fts_query` /
`search_messages`, lines 540-598)

Queries are modelled as `List Char`. `split_whitespace` splits on
Unicode `White_Space` characters and never yields empty words (the
source's extra `.filter(|w| !w.is_empty())` is subsumed). The SQL
round trip of `search_messages` is abstracted by the parameter `sql`;
the model returns, besides the results, the `MATCH` string and clamped
limit actually passed to SQL (`none` when no SQL ran). -/

/-- Rust `char::is_whitespace`: the Unicode `White_Space` property. -/
def isRustWhitespace (c : Char) : Bool :=
  c.val = 0x09 || c.val = 0x0A || c.val = 0x0B || c.val = 0x0C || c.val = 0x0D ||
  c.val = 0x20 || c.val = 0x85 || c.val = 0xA0 || c.val = 0x1680 ||
  (0x2000 ≤ c.val && c.val ≤ 0x200A) ||
  c.val = 0x2028 || c.val = 0x2029 || c.val = 0x202F || c.val = 0x205F || c.val = 0x3000

/-- `str::split_whitespace`: maximal runs of non-whitespace characters,
accumulating the current word in reverse. -/
def splitWsAux (cur : List Char) : List Char → List (List Char)
  | [] => if cur.isEmpty then [] else [cur.reverse]
  | c :: rest =>
      if isRustWhitespace c then
        if cur.isEmpty then splitWsAux [] rest
        else cur.reverse :: splitWsAux [] rest
      else splitWsAux (c :: cur) rest

def splitWs (q : List Char) : List (List Char) :=
  splitWsAux [] q

/-- `w.replace('"', "\"\"")`: double each embedded double quote. -/
def escapeQuotes : List Char → List Char
  | [] => []
  | c :: rest =>
      if c = '"' then '"' :: '"' :: escapeQuotes rest
      else c :: escapeQuotes rest

/-- `format!("\"{}\"", escaped)`: wrap the escaped word in quotes. -/
def quoteWord (w : List Char) : List Char :=
  '"' :: (escapeQuotes w ++ ['"'])

/-- `words.join(" ")`. -/
def joinWords : List (List Char) → List Char
  | [] => []
  | [w] => w
  | w :: ws => w ++ ' ' :: joinWords ws

/-- `DatabaseManager::sanitize_fts_query` (db.rs lines 540-551). -/
def sanitizeFtsQuery (q : List Char) : List Char :=
  joinWords ((splitWs q).map quoteWord)

/-- Abstract search result rows. -/
abbrev SearchRow := Nat

/-- `DatabaseManager::search_messages` (db.rs lines 553-598): empty
sanitized query short-circuits to an empty result with no SQL; else
the limit is clamped to `[1, 500]` and the FTS query runs. -/
def searchMessages (sql : List Char → Int → List SearchRow)
    (query : List Char) (limit : Int) : List SearchRow × Option (List Char × Int) :=
  let sanitized := sanitizeFtsQuery query
  if sanitized.isEmpty then ([], none)
  else
    let l := max 1 (min limit 500)
    (sql sanitized l, some (sanitized, l))

/-! ## Pagination (`db.rs`, `get_messages_page`, lines 479-536)

The conversation's stored events (already ordered by timestamp) are a
list parameter. `offset` and `limit` are `i32`; the `offset + limit`
in the `has_more` computation is `i32` addition, modelled with
explicit two's-complement wrapping. -/

/-- Two's-complement wrapping of `Int` into the `i32` range (release
mode semantics of `i32` addition overflow). -/
def i32wrap (n : Int) : Int :=
  (n + 2 ^ 31) % 2 ^ 32 - 2 ^ 31

/-- A page of messages (`models::MessagePage`). -/
structure MessagePage where
  messages : List Event
  total_count : Int
  has_more : Bool
deriving DecidableEq, Repr

/-- `DatabaseManager::get_messages_page` (db.rs lines 479-536):
`offset.max(0)`, `limit.clamp(1, 2000)`, `COUNT(*)` of the
conversation's events, `LIMIT ?2 OFFSET ?3` over the
timestamp-ordered rows, `has_more = (offset + limit) < total_count`. -/
def getMessagesPage (events : List Event) (offset limit : Int) : MessagePage :=
  let o := max offset 0
  let l := max 1 (min limit 2000)
  let total : Int := events.length
  { messages := (events.drop o.toNat).take l.toNat
    total_count := total
    has_more := i32wrap (o + l) < total }

/-! ## Media linking (`ingestion/media_linker.rs`, `link_media`,
lines 78-126)

The id map built by `scan_recursive` is abstracted as
`idMap : String → Option String` (media id to canonical path), the
filesystem existence probe as `fileExists : String → Bool`, and
`extract_media_ids` — a pure function of the metadata JSON string —
as `mediaIdsOf : Option String → List String`. -/

/-- The per-event body of `MediaLinker::link_media`: skip events that
already carry references, skip non-media-carrying event types, and
append the path of every metadata media id that resolves in the id
map to a still-existing file. -/
def linkEvent (idMap : String → Option String) (fileExists : String → Bool)
    (mediaIdsOf : Option String → List String) (e : Event) : Event :=
  if !e.media_references.isEmpty then e
  else if !(["MEDIA", "NOTE", "SNAP", "SNAP_VIDEO", "STICKER"].contains e.event_type) then e
  else
    let ids := mediaIdsOf e.metadata
    let found := ids.filterMap (fun mid =>
      match idMap mid with
      | some p => if fileExists p then some p else none
      | none => none)
    { e with media_references := e.media_references ++ found }

/-- `MediaLinker::link_media` over the whole event list. -/
def linkMedia (idMap : String → Option String) (fileExists : String → Bool)
    (mediaIdsOf : Option String → List String) (events : List Event) : List Event :=
  events.map (linkEvent idMap fileExists mediaIdsOf)

/-! ## Memory download (`downloader.rs`, `MemoryDownloader::download_memory`,
lines 37-139)

Every fallible external operation is an explicit outcome in the
environment. The function's error type distinguishes local I/O
failures, store failures, and network failures so that "a network
error is returned to the caller" is statable; the Rust body only ever
propagates I/O (`?` on tokio fs calls) and store
(`batch_insert_memories`) errors, and turns both network failure
points (the initial GET, a chunk read) into a `Failed` persist
followed by `Ok(())`. The `persisted` trace lists the download
statuses successfully written to the store, in order. -/

inductive DlErr where
  | ioErr
  | dbErr
  | netErr
deriving DecidableEq, Repr

/-- One item of the response byte stream: a successfully read chunk
together with the outcome of its `write_all`, or a stream error. -/
inductive Chunk where
  | ok : Bool → Chunk
  | chunkErr : Chunk
deriving DecidableEq, Repr

structure DlEnv where
  /-- `memory.download_url`. -/
  url : Option String
  /-- Outcome of `create_dir_all` for the target directory. -/
  createDirOk : Bool
  /-- Outcome of persisting the `Downloading` status. -/
  persistDownloadingOk : Bool
  /-- Did `client.get(url).send()` succeed? -/
  getOk : Bool
  /-- Outcome of `File::create`. -/
  fileCreateOk : Bool
  /-- The response body stream. -/
  chunks : List Chunk
  /-- Outcome of the final `flush`. -/
  flushOk : Bool
  /-- Outcome of persisting the final (`Failed` or `Downloaded`) status. -/
  persistFinalOk : Bool
deriving DecidableEq, Repr

/-- The chunk loop and tail of `download_memory` (downloader.rs lines
87-138): a stream error persists `Failed` and returns `Ok`; a write
failure propagates as an I/O error; stream exhaustion flushes,
persists `Downloaded` and sets `media_path`. -/
def streamChunks (flushOk persistFinalOk : Bool) :
    List Chunk → Except DlErr Unit × List DownloadStatus
  | [] =>
      if !flushOk then (Except.error DlErr.ioErr, [])
      else if persistFinalOk then (Except.ok (), [DownloadStatus.Downloaded])
      else (Except.error DlErr.dbErr, [])
  | Chunk.chunkErr :: _ =>
      if persistFinalOk then (Except.ok (), [DownloadStatus.Failed])
      else (Except.error DlErr.dbErr, [])
  | Chunk.ok writeOk :: rest =>
      if !writeOk then (Except.error DlErr.ioErr, [])
      else streamChunks flushOk persistFinalOk rest

/-- `MemoryDownloader::download_memory` (downloader.rs lines 37-139):
result of the call together with the trace of successfully persisted
download statuses. -/
def downloadMemory (env : DlEnv) : Except DlErr Unit × List DownloadStatus :=
  match env.url with
  | none => (Except.ok (), [])
  | some _ =>
      if !env.createDirOk then (Except.error DlErr.ioErr, [])
      else if !env.persistDownloadingOk then (Except.error DlErr.dbErr, [])
      else if !env.getOk then
        if env.persistFinalOk then (Except.ok (), [DownloadStatus.Downloading, DownloadStatus.Failed])
        else (Except.error DlErr.dbErr, [DownloadStatus.Downloading])
      else if !env.fileCreateOk then (Except.error DlErr.ioErr, [DownloadStatus.Downloading])
      else
        let r := streamChunks env.flushOk env.persistFinalOk env.chunks
        (r.1, DownloadStatus.Downloading :: r.2)

/-! # Theorems -/

/-- C2 counterexample: on pool-acquisition failure,
`DatabaseManager::conn` panics with "Database pool exhausted"
(the `.expect` in db.rs line 46) instead of returning an error value,
so the claim "failure to acquire a connection from the pool is
reported to the caller as an error value; acquiring a connection never
panics the process" is false. -/
theorem conn_panics_on_pool_failure :
    DatabaseManager.conn none = ConnOutcome.panicked "Database pool exhausted" := rfl

/-- C2 (amended): a successful pool acquisition returns the connection,
but an acquisition failure panics the process with the message
"Database pool exhausted"; `conn` never returns an error value (its
Rust return type `PooledConnection` has no error channel). -/
theorem conn_acquisition_behavior :
    (∀ c : Conn, DatabaseManager.conn (some c) = ConnOutcome.ok c) ∧
    DatabaseManager.conn none = ConnOutcome.panicked "Database pool exhausted" ∧
    (∀ m : String, DatabaseManager.conn none ≠ ConnOutcome.err m) := by
  refine ⟨fun c => rfl, rfl, fun m h => ?_⟩
  exact ConnOutcome.noConfusion h

/-- C3: evaluating `run_migrations` on a legacy database (scalar
`source_path` column in `exports`): the migrations are idempotent and
guarded, and they add `source_type` and the memory download columns —
but no `source_paths` column is ever created and the scalar
`source_path` column survives untouched, contradicting the claimed
rename-and-wrap migration (which `models::ExportSet.source_paths`
and the spec require but db.rs never implements). -/
theorem run_migrations_legacy_no_source_paths :
    runMigrations legacySchema =
      { exportsCols := ["id", "source_path", "creation_date", "validation_status", "source_type"]
        memoriesCols := ["id", "timestamp", "media_type", "latitude", "longitude", "media_path",
                         "export_id", "download_url", "proxy_url", "download_status"] } ∧
    "source_paths" ∉ (runMigrations legacySchema).exportsCols ∧
    "source_path" ∈ (runMigrations legacySchema).exportsCols ∧
    runMigrations (runMigrations legacySchema) = runMigrations legacySchema := by
  refine ⟨by decide, by decide, by decide, by decide⟩

/-- C6 counterexample: a non-empty candidate group none of whose
members exhibits any signature (e.g. a single zip part that fails to
open) is validated as `Incomplete` — not `Unknown` — and is therefore
kept by `group_candidates`, refuting "Unknown otherwise, in which case
the group is dropped". -/
theorem zero_signature_group_not_unknown :
    validateZipGroup [{ hasIndex := false, hasChat := false, hasMedia := false }] =
      ValidationStatus.Incomplete ∧
    groupKept (validateZipGroup
      [{ hasIndex := false, hasChat := false, hasMedia := false }]) = true := by
  exact ⟨rfl, rfl⟩

/-- C6 (amended): group validation is performed over all members as a
unit; a group is `Valid` iff an index document, a chat-history subtree
and a media subtree are all observed across the members, and every
other non-empty group is `Incomplete` (even when no signature at all
is observed); `Unknown` arises only for an empty member list, so no
group produced by `group_candidates` (whose groups are non-empty) is
ever dropped. The same shape holds for folder groups, where the index
signature may also come from a member's parent directory. -/
theorem group_validation_unit (zm : List ZipMemberSigs) (fm : List FolderMemberSigs) :
    (validateZipGroup zm = ValidationStatus.Valid ↔
      (zm.any (·.hasIndex) && zm.any (·.hasChat) && zm.any (·.hasMedia)) = true) ∧
    (zm ≠ [] → validateZipGroup zm = ValidationStatus.Valid ∨
      validateZipGroup zm = ValidationStatus.Incomplete) ∧
    (zm ≠ [] → groupKept (validateZipGroup zm) = true) ∧
    validateZipGroup ([] : List ZipMemberSigs) = ValidationStatus.Unknown ∧
    (validateFolderGroup fm = ValidationStatus.Valid ↔
      (fm.any (fun m => m.hasIndex || m.parentHasIndex) && fm.any (·.hasChat) &&
        fm.any (·.hasMedia)) = true) ∧
    (fm ≠ [] → validateFolderGroup fm = ValidationStatus.Valid ∨
      validateFolderGroup fm = ValidationStatus.Incomplete) ∧
    (fm ≠ [] → groupKept (validateFolderGroup fm) = true) ∧
    validateFolderGroup ([] : List FolderMemberSigs) = ValidationStatus.Unknown := by
  have hz : ∀ l : List ZipMemberSigs, l ≠ [] → l.isEmpty = false := by
    intro l hl
    cases l with
    | nil => exact absurd rfl hl
    | cons a t => rfl
  have hf : ∀ l : List FolderMemberSigs, l ≠ [] → l.isEmpty = false := by
    intro l hl
    cases l with
    | nil => exact absurd rfl hl
    | cons a t => rfl
  refine ⟨?_, ?_, ?_, rfl, ?_, ?_, ?_, rfl⟩
  · cases h1 : zm.any (·.hasIndex) <;> cases h2 : zm.any (·.hasChat) <;>
      cases h3 : zm.any (·.hasMedia) <;> cases h4 : zm.isEmpty <;>
      simp [validateZipGroup, h1, h2, h3, h4]
  · intro hne
    have h4 := hz zm hne
    cases h1 : zm.any (·.hasIndex) <;> cases h2 : zm.any (·.hasChat) <;>
      cases h3 : zm.any (·.hasMedia) <;>
      simp [validateZipGroup, h1, h2, h3, h4]
  · intro hne
    have h4 := hz zm hne
    cases h1 : zm.any (·.hasIndex) <;> cases h2 : zm.any (·.hasChat) <;>
      cases h3 : zm.any (·.hasMedia) <;>
      simp [validateZipGroup, groupKept, h1, h2, h3, h4]
  · cases h1 : fm.any (fun m => m.hasIndex || m.parentHasIndex) <;>
      cases h2 : fm.any (·.hasChat) <;>
      cases h3 : fm.any (·.hasMedia) <;> cases h4 : fm.isEmpty <;>
      simp [validateFolderGroup, h1, h2, h3, h4]
  · intro hne
    have h4 := hf fm hne
    cases h1 : fm.any (fun m => m.hasIndex || m.parentHasIndex) <;>
      cases h2 : fm.any (·.hasChat) <;>
      cases h3 : fm.any (·.hasMedia) <;>
      simp [validateFolderGroup, h1, h2, h3, h4]
  · intro hne
    have h4 := hf fm hne
    cases h1 : fm.any (fun m => m.hasIndex || m.parentHasIndex) <;>
      cases h2 : fm.any (·.hasChat) <;>
      cases h3 : fm.any (·.hasMedia) <;>
      simp [validateFolderGroup, groupKept, h1, h2, h3, h4]

/-- C6 witness: instantiating the amended group-validation theorem on
concrete groups: a zip group whose two parts jointly exhibit all three
signatures is `Valid` and kept. -/
theorem group_validation_unit_witness :
    validateZipGroup
      [{ hasIndex := true, hasChat := true, hasMedia := false },
       { hasIndex := false, hasChat := false, hasMedia := true }] =
      ValidationStatus.Valid ∧
    groupKept (validateZipGroup
      [{ hasIndex := true, hasChat := true, hasMedia := false },
       { hasIndex := false, hasChat := false, hasMedia := true }]) = true := by
  have h := group_validation_unit
    [{ hasIndex := true, hasChat := true, hasMedia := false },
     { hasIndex := false, hasChat := false, hasMedia := true }]
    ([] : List FolderMemberSigs)
  exact ⟨h.1.mpr (by decide), h.2.2.1 (by decide)⟩

/-- `enclosed_name` unfolding: acceptance means the depth check passed
and the path is returned unchanged. -/
theorem enclosedName_eq_some {cs p : List PComp} (h : enclosedName cs = some p) :
    encOk 0 cs = true ∧ p = cs := by
  unfold enclosedName at h
  by_cases hc : encOk 0 cs = true
  · rw [if_pos hc] at h
    exact ⟨hc, (Option.some.inj h).symm⟩
  · rw [if_neg hc] at h
    exact absurd h (Option.noConfusion)

/-- Depth invariant of `enclosed_name`: a path accepted at depth
`extra.length` resolves, under any base `wd ++ extra`, to a path that
still has `wd` as a prefix. -/
theorem encOk_resolve_prefix (wd : List String) :
    ∀ (cs : List PComp) (extra : List String),
      encOk extra.length cs = true →
      List.IsPrefix wd (resolveComps (wd ++ extra) cs) := by
  intro cs
  induction cs with
  | nil =>
    intro extra _
    exact List.prefix_append wd extra
  | cons c rest ih =>
    intro extra h
    cases c with
    | root => simp [encOk] at h
    | parent =>
      rcases List.eq_nil_or_concat extra with rfl | ⟨ys, y, rfl⟩
      · simp [encOk] at h
      · rw [List.concat_eq_append]
        have h2 : encOk ys.length rest = true := by
          simpa [encOk, List.length_append] using h
        have hd : (wd ++ (ys ++ [y])).dropLast = wd ++ ys := by
          rw [← List.append_assoc]
          simp
        show List.IsPrefix wd (resolveComps ((wd ++ (ys ++ [y])).dropLast) rest)
        rw [hd]
        exact ih ys h2
    | cur =>
      exact ih extra (by simpa [encOk] using h)
    | normal s =>
      have h2 : encOk (extra ++ [s]).length rest = true := by
        simpa [encOk, List.length_append] using h
      show List.IsPrefix wd (resolveComps ((wd ++ extra) ++ [s]) rest)
      rw [List.append_assoc]
      exact ih (extra ++ [s]) h2

/-- Every filesystem action of a successful `extractEntries` run has
the working directory as a path prefix. -/
theorem extractEntries_writes_prefix (wd : List String) :
    ∀ (es : List ZipEntry) (t total : Nat) (acts : List FsAction),
      extractEntries wd t es = Except.ok (total, acts) →
      ∀ a ∈ acts, List.IsPrefix wd a.path := by
  intro es
  induction es with
  | nil =>
    intro t total acts h a ha
    simp only [extractEntries, Except.ok.injEq, Prod.mk.injEq] at h
    rw [← h.2] at ha
    simp at ha
  | cons e rest ih =>
    intro t total acts h a ha
    simp only [extractEntries] at h
    by_cases hc : t + e.size > MAX_TOTAL_SIZE
    · rw [if_pos hc] at h
      exact absurd h (by simp)
    · rw [if_neg hc] at h
      cases hen : enclosedName e.name with
      | none =>
        rw [hen] at h
        exact ih (t + e.size) total acts h a ha
      | some p =>
        rw [hen] at h
        cases hrec : extractEntries wd (t + e.size) rest with
        | error msg =>
          rw [hrec] at h
          exact absurd h (by simp [Except.map])
        | ok r =>
          rw [hrec] at h
          simp only [Except.map, Except.ok.injEq, Prod.mk.injEq] at h
          rw [← h.2] at ha
          rcases List.mem_cons.mp ha with rfl | hmem
          · obtain ⟨henc, rfl⟩ := enclosedName_eq_some hen
            have hpre : List.IsPrefix wd (resolveComps (wd ++ []) e.name) := by
              exact encOk_resolve_prefix wd e.name [] (by simpa using henc)
            rw [List.append_nil] at hpre
            by_cases hd : e.isDir
            · simpa [hd, FsAction.path] using hpre
            · simpa [hd, FsAction.path] using hpre
          · exact ih (t + e.size) r.1 r.2 hrec a hmem

/-- C5: zip-slip safety of `ZipExtractor::extract`. Every directory or
file the extractor creates during a successful extraction lies under
the working directory `target/<export_id>`; conversely, any entry path
whose filesystem resolution against the working directory escapes it
is rejected by `enclosed_name` (so no file or directory is ever
created for it — rejected entries are skipped with no action). -/
theorem extractor_zip_slip_safety (targetDir : List String) (exportId : String)
    (parts : List (List ZipEntry)) (total : Nat) (acts : List FsAction)
    (h : zipExtract targetDir exportId parts = Except.ok (total, acts)) :
    (∀ a ∈ acts, List.IsPrefix (targetDir ++ [exportId]) a.path) ∧
    (∀ cs : List PComp,
      ¬ List.IsPrefix (targetDir ++ [exportId])
        (resolveComps (targetDir ++ [exportId]) cs) →
      enclosedName cs = none) := by
  constructor
  · exact extractEntries_writes_prefix (targetDir ++ [exportId]) parts.flatten 0 total acts h
  · intro cs hesc
    cases hn : enclosedName cs with
    | none => rfl
    | some p =>
      have henc := (enclosedName_eq_some hn).1
      have hpre := encOk_resolve_prefix (targetDir ++ [exportId]) cs [] (by simpa using henc)
      rw [List.append_nil] at hpre
      exact absurd hpre hesc

/-- C5 witness: a concrete one-entry extraction writes
`target/e1/big.bin`, which the safety theorem certifies to lie under
the working directory `target/e1`. -/
theorem extractor_zip_slip_safety_witness :
    List.IsPrefix ["target", "e1"]
      (FsAction.path (FsAction.writeFile ["target", "e1", "big.bin"])) := by
  have h := extractor_zip_slip_safety ["target"] "e1"
    [[{ name := [PComp.normal "big.bin"], size := 10, isDir := false }]]
    10 [FsAction.writeFile ["target", "e1", "big.bin"]] rfl
  exact h.1 _ (by simp)

/-- The size accounting of `extractEntries`: starting below the cap,
the run succeeds with the accumulated total exactly when the grand
total stays within `MAX_TOTAL_SIZE`, and aborts with the validation
error message as soon as it would exceed it. -/
theorem extractEntries_size_cap (wd : List String) :
    ∀ (es : List ZipEntry) (total : Nat), total ≤ MAX_TOTAL_SIZE →
      (total + (es.map (·.size)).sum ≤ MAX_TOTAL_SIZE →
        ∃ acts, extractEntries wd total es =
          Except.ok (total + (es.map (·.size)).sum, acts)) ∧
      (total + (es.map (·.size)).sum > MAX_TOTAL_SIZE →
        extractEntries wd total es =
          Except.error "Total extraction would exceed 500GB size limit.") := by
  intro es
  induction es with
  | nil =>
    intro total htot
    refine ⟨fun _ => ⟨[], by simp [extractEntries]⟩, fun hgt => ?_⟩
    simp at hgt
    omega
  | cons e rest ih =>
    intro total htot
    by_cases hc : total + e.size > MAX_TOTAL_SIZE
    · refine ⟨fun hle => ?_, fun _ => ?_⟩
      · exfalso
        simp only [List.map_cons, List.sum_cons] at hle
        omega
      · simp only [extractEntries]
        rw [if_pos hc]
    · have hle2 : total + e.size ≤ MAX_TOTAL_SIZE := by omega
      have ihr := ih (total + e.size) hle2
      refine ⟨fun hle => ?_, fun hgt => ?_⟩
      · obtain ⟨acts, hacts⟩ := ihr.1 (by
          simp only [List.map_cons, List.sum_cons] at hle
          omega)
        simp only [extractEntries]
        rw [if_neg hc]
        cases hen : enclosedName e.name with
        | none =>
          refine ⟨acts, ?_⟩
          rw [hacts]
          simp only [List.map_cons, List.sum_cons]
          congr 2
          omega
        | some p =>
          refine ⟨(if e.isDir then FsAction.mkdir (resolveComps wd p)
                   else FsAction.writeFile (resolveComps wd p)) :: acts, ?_⟩
          rw [hacts]
          simp only [Except.map, List.map_cons, List.sum_cons]
          congr 2
          omega
      · have herr := ihr.2 (by
          simp only [List.map_cons, List.sum_cons] at hgt
          omega)
        simp only [extractEntries]
        rw [if_neg hc]
        cases hen : enclosedName e.name with
        | none => exact herr
        | some p =>
          rw [herr]
          simp [Except.map]

/-- C4 (amended): the extractor maintains one running total of entry
sizes across all parts and aborts with the validation failure as soon
as the total would exceed the cap — but the cap is the single constant
`MAX_TOTAL_SIZE = 500 GiB` for every extraction, single-archive or
multi-part alike (there is no 5 GB single-archive cap). -/
theorem extractor_size_cap (targetDir : List String) (exportId : String)
    (parts : List (List ZipEntry)) :
    ((parts.flatten.map (·.size)).sum ≤ MAX_TOTAL_SIZE →
      ∃ acts, zipExtract targetDir exportId parts =
        Except.ok ((parts.flatten.map (·.size)).sum, acts)) ∧
    ((parts.flatten.map (·.size)).sum > MAX_TOTAL_SIZE →
      zipExtract targetDir exportId parts =
        Except.error "Total extraction would exceed 500GB size limit.") ∧
    MAX_TOTAL_SIZE = 500 * 1024 * 1024 * 1024 := by
  have h := extractEntries_size_cap (targetDir ++ [exportId]) parts.flatten 0
    (Nat.zero_le _)
  refine ⟨fun hle => ?_, fun hgt => ?_, rfl⟩
  · obtain ⟨acts, hacts⟩ := h.1 (by simpa using hle)
    exact ⟨acts, by simpa using hacts⟩
  · have := h.2 (by simpa using hgt)
    simpa using this

/-- C4 counterexample: a single-part archive totalling 6 GiB — above
the claimed 5 GB single-archive cap — extracts successfully, because
the only cap in the code is the 500 GiB `MAX_TOTAL_SIZE`. -/
theorem single_archive_6gib_not_capped :
    zipExtract ["target"] "e1"
      [[{ name := [PComp.normal "big.bin"], size := 6442450944, isDir := false }]] =
      Except.ok (6442450944, [FsAction.writeFile ["target", "e1", "big.bin"]]) ∧
    5 * 1024 * 1024 * 1024 < 6442450944 := by
  exact ⟨rfl, by norm_num⟩

/-- C4 witness: a single oversize part is aborted with the validation
failure once the running total passes 500 GiB. -/
theorem extractor_size_cap_witness :
    zipExtract ["t"] "e"
      [[{ name := [PComp.normal "a"], size := 536870912001, isDir := false }]] =
      Except.error "Total extraction would exceed 500GB size limit." := by
  exact (extractor_size_cap ["t"] "e"
    [[{ name := [PComp.normal "a"], size := 536870912001, isDir := false }]]).2.1
    (by norm_num [MAX_TOTAL_SIZE])

/-- A split with a non-empty current word never returns the empty word
list. -/
theorem splitWsAux_ne_nil : ∀ (q cur : List Char), cur ≠ [] → splitWsAux cur q ≠ [] := by
  intro q
  induction q with
  | nil =>
    intro cur h
    have he : cur.isEmpty = false := by
      cases cur with
      | nil => exact absurd rfl h
      | cons a t => rfl
    simp [splitWsAux, he]
  | cons c rest ih =>
    intro cur h
    have he : cur.isEmpty = false := by
      cases cur with
      | nil => exact absurd rfl h
      | cons a t => rfl
    simp only [splitWsAux]
    by_cases hw : isRustWhitespace c = true
    · rw [if_pos hw, he]
      simp
    · rw [if_neg hw]
      exact ih (c :: cur) (by simp)

/-- `split_whitespace` yields no words exactly when every character of
the query is whitespace. -/
theorem splitWsAux_nil_iff : ∀ q : List Char,
    (splitWsAux [] q = [] ↔ ∀ c ∈ q, isRustWhitespace c = true) := by
  intro q
  induction q with
  | nil => simp [splitWsAux]
  | cons c rest ih =>
    simp only [splitWsAux]
    by_cases hw : isRustWhitespace c = true
    · rw [if_pos hw]
      simp only [List.isEmpty_nil, if_true]
      rw [ih]
      simp [hw]
    · rw [if_neg hw]
      constructor
      · intro h
        exact absurd h (splitWsAux_ne_nil rest [c] (by simp))
      · intro h
        exact absurd (h c (by simp)) (by simpa using hw)

/-- Every character of a word produced by `split_whitespace` occurs in
the current accumulator or in the remaining input. -/
theorem splitWsAux_mem_chars : ∀ (q cur w : List Char), w ∈ splitWsAux cur q →
    ∀ c ∈ w, c ∈ cur ∨ c ∈ q := by
  intro q
  induction q with
  | nil =>
    intro cur w hw c hc
    simp only [splitWsAux] at hw
    by_cases he : cur.isEmpty
    · rw [if_pos he] at hw
      simp at hw
    · rw [if_neg he] at hw
      simp only [List.mem_singleton] at hw
      subst hw
      exact Or.inl (by simpa using hc)
  | cons a rest ih =>
    intro cur w hw c hc
    simp only [splitWsAux] at hw
    by_cases hws : isRustWhitespace a = true
    · rw [if_pos hws] at hw
      by_cases he : cur.isEmpty
      · rw [if_pos he] at hw
        rcases ih [] w hw c hc with h | h
        · simp at h
        · exact Or.inr (by simp [h])
      · rw [if_neg he] at hw
        rcases List.mem_cons.mp hw with rfl | hw2
        · exact Or.inl (by simpa using hc)
        · rcases ih [] w hw2 c hc with h | h
          · simp at h
          · exact Or.inr (by simp [h])
    · rw [if_neg hws] at hw
      rcases ih (a :: cur) w hw c hc with h | h
      · rcases List.mem_cons.mp h with rfl | h2
        · exact Or.inr (by simp)
        · exact Or.inl h2
      · exact Or.inr (by simp [h])

/-- Doubling quotes is the identity on quote-free words. -/
theorem escapeQuotes_eq_self : ∀ w : List Char, (∀ c ∈ w, c ≠ '"') → escapeQuotes w = w := by
  intro w
  induction w with
  | nil => intro _; rfl
  | cons c rest ih =>
    intro h
    have hc : c ≠ '"' := h c (by simp)
    simp only [escapeQuotes]
    rw [if_neg hc, ih (fun c2 hc2 => h c2 (by simp [hc2]))]

/-- Joining the quoted words is empty exactly when there are no
words (each quoted word starts with a quote, so is non-empty). -/
theorem joinWords_quote_nil_iff : ∀ ws : List (List Char),
    (joinWords (ws.map quoteWord) = [] ↔ ws = []) := by
  intro ws
  cases ws with
  | nil => simp [joinWords]
  | cons w rest =>
    cases rest with
    | nil => simp [joinWords, quoteWord]
    | cons w2 rest2 => simp [joinWords, quoteWord]

/-- The sanitized query is empty exactly when the query is empty or
all-whitespace. -/
theorem sanitizeFtsQuery_nil_iff (q : List Char) :
    (sanitizeFtsQuery q = [] ↔ ∀ c ∈ q, isRustWhitespace c = true) := by
  unfold sanitizeFtsQuery
  rw [joinWords_quote_nil_iff]
  exact splitWsAux_nil_iff q

/-- C7: search sanitization. The sanitized form splits the query on
whitespace, doubles each embedded double quote, wraps each word in
double quotes and joins with single spaces; on a quote-free query each
word is simply wrapped; the sanitized form is empty exactly for
empty/whitespace-only queries, in which case `search_messages` returns
an empty result without running any SQL; otherwise the SQL runs with
the sanitized string and a limit clamped into `[1, 500]`. -/
theorem search_sanitization (sql : List Char → Int → List SearchRow)
    (q : List Char) (limit : Int) :
    sanitizeFtsQuery q = joinWords ((splitWs q).map quoteWord) ∧
    ((∀ c ∈ q, c ≠ '"') →
      sanitizeFtsQuery q = joinWords ((splitWs q).map (fun w => '"' :: (w ++ ['"'])))) ∧
    (sanitizeFtsQuery q = [] ↔ ∀ c ∈ q, isRustWhitespace c = true) ∧
    ((∀ c ∈ q, isRustWhitespace c = true) → searchMessages sql q limit = ([], none)) ∧
    (sanitizeFtsQuery q ≠ [] →
      searchMessages sql q limit =
        (sql (sanitizeFtsQuery q) (max 1 (min limit 500)),
         some (sanitizeFtsQuery q, max 1 (min limit 500))) ∧
      1 ≤ max 1 (min limit 500) ∧ max 1 (min limit 500) ≤ 500) := by
  refine ⟨rfl, ?_, sanitizeFtsQuery_nil_iff q, ?_, ?_⟩
  · intro hq
    unfold sanitizeFtsQuery
    congr 1
    apply List.map_congr_left
    intro w hw
    unfold quoteWord
    rw [escapeQuotes_eq_self w]
    intro c hc
    rcases splitWsAux_mem_chars q [] w hw c hc with h | h
    · simp at h
    · exact hq c h
  · intro h
    have h0 : sanitizeFtsQuery q = [] := (sanitizeFtsQuery_nil_iff q).mpr h
    simp [searchMessages, h0]
  · intro hne
    have he : (sanitizeFtsQuery q).isEmpty = false := by
      cases hq : sanitizeFtsQuery q with
      | nil => exact absurd hq hne
      | cons a t => rfl
    refine ⟨?_, le_max_left 1 _, max_le (by norm_num) (min_le_right limit 500)⟩
    simp [searchMessages, he]

/-- A trivial SQL layer used to instantiate the search theorems. -/
def sqlStub : List Char → Int → List SearchRow := fun _ _ => []

/-- C7 witness: on the all-whitespace query of three spaces,
`search_messages` returns the empty result without running SQL. -/
theorem search_sanitization_witness :
    searchMessages sqlStub ("   ".toList) 50 = ([], none) :=
  (search_sanitization sqlStub ("   ".toList) 50).2.2.2.1 (by decide)

/-- `i32` wrapping is the identity on the `i32` range. -/
theorem i32wrap_eq_self {n : Int} (h0 : -(2 ^ 31) ≤ n) (h1 : n ≤ 2 ^ 31 - 1) :
    i32wrap n = n := by
  unfold i32wrap
  rw [Int.emod_eq_of_lt (by omega) (by omega)]
  omega

/-- C8 counterexample: at `offset = 2147483647` (`i32::MAX`) on an
empty conversation, the `i32` sum `offset + limit` wraps negative, so
`get_messages_page` returns `has_more = true` even though the claimed
law `clamped offset + clamped limit < total_count` is false (and the
claimed `has_more = false` for an empty conversation fails too). -/
theorem pagination_overflow :
    (getMessagesPage [] 2147483647 5).has_more = true ∧
    ¬ (max (2147483647 : Int) 0 + max 1 (min 5 2000) <
        ((([] : List Event).length : Int))) ∧
    (getMessagesPage [] 2147483647 5).total_count = 0 := by
  refine ⟨by decide, by decide, by decide⟩

/-- C8 (amended): `get_messages_page` clamps `offset` to at least 0 and
`limit` into `[1, 2000]`, returns the conversation's total event count,
and — whenever the clamped `i32` sum `offset + limit` does not overflow
`i32` — returns `has_more` equal to
`clamped offset + clamped limit < total_count`; negative offset and
limit never panic, and on an empty conversation (with no overflow) the
result is `total_count = 0` and `has_more = false`. At offsets where
the sum overflows, the wrapped sum is compared instead. -/
theorem pagination_law (events : List Event) (offset limit : Int)
    (hov : max offset 0 + max 1 (min limit 2000) ≤ 2 ^ 31 - 1) :
    0 ≤ max offset 0 ∧
    1 ≤ max 1 (min limit 2000) ∧
    max 1 (min limit 2000) ≤ 2000 ∧
    (getMessagesPage events offset limit).total_count = (events.length : Int) ∧
    ((getMessagesPage events offset limit).has_more = true ↔
      max offset 0 + max 1 (min limit 2000) < (events.length : Int)) ∧
    (getMessagesPage events offset limit).messages =
      (events.drop (max offset 0).toNat).take (max 1 (min limit 2000)).toNat ∧
    (events = [] → (getMessagesPage events offset limit).total_count = 0 ∧
      (getMessagesPage events offset limit).has_more = false) := by
  have hl1 : 1 ≤ max 1 (min limit 2000) := le_max_left 1 _
  have hwrap : i32wrap (max offset 0 + max 1 (min limit 2000)) =
      max offset 0 + max 1 (min limit 2000) := by
    apply i32wrap_eq_self
    · have : (0 : Int) ≤ max offset 0 := le_max_right offset 0
      omega
    · exact hov
  have hhm : (getMessagesPage events offset limit).has_more = true ↔
      max offset 0 + max 1 (min limit 2000) < (events.length : Int) := by
    simp only [getMessagesPage]
    rw [hwrap]
    exact decide_eq_true_iff
  refine ⟨le_max_right offset 0, hl1,
    max_le (by norm_num) (min_le_right limit 2000), rfl, hhm, rfl, ?_⟩
  intro hnil
  subst hnil
  refine ⟨rfl, ?_⟩
  rw [← Bool.not_eq_true]
  intro hcontra
  have := hhm.mp hcontra
  simp only [List.length_nil, Nat.cast_zero] at this
  have h0 : (0 : Int) ≤ max offset 0 := le_max_right offset 0
  omega

/-- C8 witness: the spec's pagination-clamp scenario — on an empty
conversation, `get_messages_page` with negative offset and limit
returns `total_count = 0` and `has_more = false`. -/
theorem pagination_law_witness :
    (getMessagesPage [] (-5) (-10)).total_count = 0 ∧
    (getMessagesPage [] (-5) (-10)).has_more = false :=
  (pagination_law [] (-5) (-10) (by decide)).2.2.2.2.2.2 rfl

/-- One `link_media` pass is idempotent on a single event: an event
that received references is skipped by the second pass, and an event
that received none is recomputed to the same (unchanged) event. -/
theorem linkEvent_idem (idMap : String → Option String) (fileExists : String → Bool)
    (mediaIdsOf : Option String → List String) (e : Event) :
    linkEvent idMap fileExists mediaIdsOf (linkEvent idMap fileExists mediaIdsOf e) =
      linkEvent idMap fileExists mediaIdsOf e := by
  by_cases h1 : e.media_references.isEmpty = true
  · by_cases h2 : (["MEDIA", "NOTE", "SNAP", "SNAP_VIDEO", "STICKER"].contains e.event_type) = true
    · have h1e : e.media_references = [] := List.isEmpty_iff.mp h1
      have hlink : linkEvent idMap fileExists mediaIdsOf e =
          { e with media_references :=
              e.media_references ++ (mediaIdsOf e.metadata).filterMap (fun mid =>
                match idMap mid with
                | some p => if fileExists p then some p else none
                | none => none) } := by
        unfold linkEvent
        rw [h1, h2]
        rfl
      cases hf : (mediaIdsOf e.metadata).filterMap (fun mid =>
          match idMap mid with
          | some p => if fileExists p then some p else none
          | none => none) with
      | nil =>
        have he : linkEvent idMap fileExists mediaIdsOf e = e := by
          rw [hlink, hf, List.append_nil]
        rw [he, he]
      | cons p ps =>
        have he : linkEvent idMap fileExists mediaIdsOf e =
            { e with media_references := p :: ps } := by
          rw [hlink, hf, h1e]
          rfl
        rw [he]
        simp [linkEvent]
    · have h2f : (["MEDIA", "NOTE", "SNAP", "SNAP_VIDEO", "STICKER"].contains e.event_type) = false := by
        cases hb : (["MEDIA", "NOTE", "SNAP", "SNAP_VIDEO", "STICKER"].contains e.event_type) with
        | false => rfl
        | true => exact absurd hb h2
      have he : linkEvent idMap fileExists mediaIdsOf e = e := by
        unfold linkEvent
        rw [h1, h2f]
        rfl
      rw [he, he]
  · have h1f : e.media_references.isEmpty = false := by
      cases hb : e.media_references.isEmpty with
      | false => rfl
      | true => exact absurd hb h1
    have he : linkEvent idMap fileExists mediaIdsOf e = e := by
      unfold linkEvent
      rw [h1f]
      rfl
    rw [he, he]

/-- C9: linker idempotence. Running `link_media` twice over the same
event list (same id map and filesystem) produces exactly the events of
a single run, and any event whose `media_references` list is already
non-empty is left completely unchanged — so no reference is ever
appended twice. -/
theorem linker_idempotent (idMap : String → Option String) (fileExists : String → Bool)
    (mediaIdsOf : Option String → List String) (events : List Event) :
    linkMedia idMap fileExists mediaIdsOf (linkMedia idMap fileExists mediaIdsOf events) =
      linkMedia idMap fileExists mediaIdsOf events ∧
    ∀ e ∈ events, e.media_references ≠ [] →
      linkEvent idMap fileExists mediaIdsOf e = e := by
  constructor
  · unfold linkMedia
    rw [List.map_map]
    apply List.map_congr_left
    intro e _
    exact linkEvent_idem idMap fileExists mediaIdsOf e
  · intro e _ hne
    have h1f : e.media_references.isEmpty = false := by
      cases hb : e.media_references with
      | nil => exact absurd hb hne
      | cons a t => simp [hb]
    simp [linkEvent, h1f]

/-- Stub id map for witnesses: resolves nothing. -/
def idMapStub : String → Option String := fun _ => none

/-- Stub filesystem for witnesses: every path exists. -/
def fileExistsStub : String → Bool := fun _ => true

/-- Stub metadata id extraction for witnesses: no ids. -/
def mediaIdsStub : Option String → List String := fun _ => []

/-- An already-linked media event used by the linker witness. -/
def linkedEvent : Event :=
  { id := "e1", timestamp := 0, sender := "alice", sender_name := none,
    media_references := ["chat_media/2023-01-01_ABC.jpg"],
    conversation_id := some "c", content := none,
    event_type := "MEDIA", metadata := none }

/-- C9 witness: an event that already carries a media reference is left
unchanged by `link_media`. -/
theorem linker_idempotent_witness :
    linkEvent idMapStub fileExistsStub mediaIdsStub linkedEvent = linkedEvent :=
  (linker_idempotent idMapStub fileExistsStub mediaIdsStub [linkedEvent]).2
    linkedEvent (by simp) (by simp [linkedEvent])

/-- `enrichFirst` fails exactly when no event in the list matches. -/
theorem enrichFirst_none_iff (k : String) (j : Event) :
    ∀ es : List Event, (enrichFirst k j es = none ↔ es.any (matchesJson k j) = false) := by
  intro es
  induction es with
  | nil => simp [enrichFirst]
  | cons e rest ih =>
    simp only [enrichFirst, List.any_cons]
    by_cases h : matchesJson k j e = true
    · rw [if_pos h]
      simp [h]
    · have hf : matchesJson k j e = false := by
        cases hb : matchesJson k j e with
        | false => rfl
        | true => exact absurd hb h
      rw [if_neg h, hf]
      simp only [Bool.false_or]
      rw [← ih]
      exact Option.map_eq_none'

/-- When `enrichFirst` succeeds, it has located the first matching
event (at index `n`, with all earlier events non-matching) and
replaced only its metadata with the JSON event's. -/
theorem enrichFirst_some_spec (k : String) (j : Event) :
    ∀ (es es2 : List Event), enrichFirst k j es = some es2 →
      ∃ n e, es[n]? = some e ∧ matchesJson k j e = true ∧
        (∀ m, m < n → ∀ e2, es[m]? = some e2 → matchesJson k j e2 = false) ∧
        es2 = es.set n { e with metadata := j.metadata } := by
  intro es
  induction es with
  | nil =>
    intro es2 h
    simp [enrichFirst] at h
  | cons e rest ih =>
    intro es2 h
    simp only [enrichFirst] at h
    by_cases hm : matchesJson k j e = true
    · rw [if_pos hm] at h
      refine ⟨0, e, by simp, hm, ?_, ?_⟩
      · intro m hm0 e2 _
        omega
      · exact (Option.some.inj h).symm
    · rw [if_neg hm] at h
      have hmf : matchesJson k j e = false := by
        cases hb : matchesJson k j e with
        | false => rfl
        | true => exact absurd hb hm
      cases hrec : enrichFirst k j rest with
      | none =>
        rw [hrec] at h
        simp at h
      | some rs =>
        rw [hrec] at h
        simp only [Option.map_some'] at h
        obtain ⟨n, e0, hget, hmat, hmin, hset⟩ := ih rs hrec
        refine ⟨n + 1, e0, by simpa using hget, hmat, ?_, ?_⟩
        · intro m hm1 e2 hg2
          cases m with
          | zero =>
            have : e2 = e := by simpa using hg2.symm
            rw [this]
            exact hmf
          | succ m0 =>
            exact hmin m0 (by omega) e2 (by simpa using hg2)
        · rw [← Option.some.inj h, hset]
          rfl

/-- C1: reconciliation of one JSON chat event into the accumulated
stream. When some event matches (same conversation key, same sender,
timestamp delta at most 2 seconds, no metadata yet), the JSON event's
metadata is copied onto the *first* such event, the total event count
does not grow, and the conversation list is untouched; when no event
matches, the JSON event is appended as a new event and a conversation
with its key is synthesized exactly when none exists. -/
theorem reconciliation_step (extractTitle : Option String → Option String)
    (st : MergeState) (k : String) (j : Event) :
    (st.events.any (matchesJson k j) = true →
      (applyJsonEvent extractTitle st k j).events.length = st.events.length ∧
      (applyJsonEvent extractTitle st k j).convs = st.convs ∧
      ∃ n e, st.events[n]? = some e ∧ matchesJson k j e = true ∧
        (∀ m, m < n → ∀ e2, st.events[m]? = some e2 → matchesJson k j e2 = false) ∧
        (applyJsonEvent extractTitle st k j).events =
          st.events.set n { e with metadata := j.metadata }) ∧
    (st.events.any (matchesJson k j) = false →
      (applyJsonEvent extractTitle st k j).events = st.events ++ [j] ∧
      (st.convs.any (fun c => c.id = k) = true →
        (applyJsonEvent extractTitle st k j).convs = st.convs) ∧
      (st.convs.any (fun c => c.id = k) = false →
        (applyJsonEvent extractTitle st k j).convs =
          st.convs ++ [synthConversation extractTitle k j])) := by
  constructor
  · intro hany
    cases hen : enrichFirst k j st.events with
    | none =>
      rw [enrichFirst_none_iff] at hen
      rw [hany] at hen
      exact absurd hen (by simp)
    | some evts =>
      obtain ⟨n, e, hget, hmat, hmin, hset⟩ := enrichFirst_some_spec k j st.events evts hen
      have happ : (applyJsonEvent extractTitle st k j).events = evts := by
        simp [applyJsonEvent, hen]
      have hconv : (applyJsonEvent extractTitle st k j).convs = st.convs := by
        simp [applyJsonEvent, hen]
      refine ⟨?_, hconv, n, e, hget, hmat, hmin, ?_⟩
      · rw [happ, hset]
        exact List.length_set st.events n _
      · rw [happ, hset]
  · intro hnone
    have hen : enrichFirst k j st.events = none :=
      (enrichFirst_none_iff k j st.events).mpr hnone
    refine ⟨by simp [applyJsonEvent, hen], ?_, ?_⟩
    · intro hc
      simp [applyJsonEvent, hen, hc]
    · intro hc
      simp [applyJsonEvent, hen, hc]

/-- Stub `conversation_title` extraction (serde_json) used by
witnesses: extracts nothing. -/
def extractTitleStub : Option String → Option String := fun _ => none

/-- The HTML event of the spec's reconciliation scenario: metadata-free
at timestamp `T`. -/
def htmlEventA : Event :=
  { id := "h1", timestamp := 100, sender := "alice", sender_name := none,
    media_references := [], conversation_id := some "c",
    content := some "hello", event_type := "TEXT", metadata := none }

/-- The JSON event of the spec's reconciliation scenario: carries
metadata at timestamp `T + 1 s`. -/
def jsonEventA : Event :=
  { id := "j1", timestamp := 101, sender := "alice", sender_name := none,
    media_references := [], conversation_id := some "c",
    content := none, event_type := "TEXT", metadata := some "mids" }

/-- C1 witness: merging the JSON event of the spec scenario into a
one-event HTML stream keeps the event count at one. -/
theorem reconciliation_step_witness :
    (applyJsonEvent extractTitleStub
      { events := [htmlEventA], convs := [] } "c" jsonEventA).events.length = 1 :=
  ((reconciliation_step extractTitleStub
      { events := [htmlEventA], convs := [] } "c" jsonEventA).1 (by decide)).1

/-- The chunk loop never produces a network error as its result: it
either succeeds, or fails with a local I/O or store error. -/
theorem streamChunks_no_net (f p : Bool) :
    ∀ cs : List Chunk, (streamChunks f p cs).1 ≠ Except.error DlErr.netErr := by
  intro cs
  induction cs with
  | nil =>
    by_cases hf : f <;> by_cases hp : p <;> simp [streamChunks, hf, hp]
  | cons c rest ih =>
    cases c with
    | chunkErr => by_cases hp : p <;> simp [streamChunks, hp]
    | ok w =>
      by_cases hw : w
      · simpa [streamChunks, hw] using ih
      · simp [streamChunks, hw]

/-- A chunk-read error after any number of successfully written chunks
persists `Failed` and returns `Ok`. -/
theorem streamChunks_chunk_error (f : Bool) :
    ∀ (pre post : List Chunk), (∀ c ∈ pre, c = Chunk.ok true) →
      streamChunks f true (pre ++ Chunk.chunkErr :: post) =
        (Except.ok (), [DownloadStatus.Failed]) := by
  intro pre
  induction pre with
  | nil =>
    intro post _
    simp [streamChunks]
  | cons c rest ih =>
    intro post h
    have hc : c = Chunk.ok true := h c (by simp)
    subst hc
    simp only [List.cons_append, streamChunks, Bool.not_true]
    simpa using ih post (fun c2 h2 => h c2 (by simp [h2]))

/-- C10: network failures are never surfaced by `download_memory`.
The call never returns a network error; if the initial GET fails (with
the store persists succeeding) the memory is persisted `Downloading`
then `Failed` and the call returns `Ok`; likewise when reading a
response chunk errors after any number of cleanly written chunks; an
`Err` arises only from local I/O or store operations — in particular,
when `File::create` fails the call returns the I/O error with the
memory still persisted as `Downloading`. -/
theorem download_memory_error_policy (env : DlEnv) :
    ((downloadMemory env).1 ≠ Except.error DlErr.netErr) ∧
    (env.url.isSome = true → env.createDirOk = true → env.persistDownloadingOk = true →
      env.persistFinalOk = true → env.getOk = false →
      downloadMemory env =
        (Except.ok (), [DownloadStatus.Downloading, DownloadStatus.Failed])) ∧
    (∀ pre post, env.url.isSome = true → env.createDirOk = true →
      env.persistDownloadingOk = true → env.persistFinalOk = true →
      env.getOk = true → env.fileCreateOk = true →
      env.chunks = pre ++ Chunk.chunkErr :: post →
      (∀ c ∈ pre, c = Chunk.ok true) →
      downloadMemory env =
        (Except.ok (), [DownloadStatus.Downloading, DownloadStatus.Failed])) ∧
    (env.url.isSome = true → env.createDirOk = true → env.persistDownloadingOk = true →
      env.getOk = true → env.fileCreateOk = false →
      downloadMemory env = (Except.error DlErr.ioErr, [DownloadStatus.Downloading])) := by
  obtain ⟨url, cd, p1, g, fc, cs, fl, pf⟩ := env
  refine ⟨?_, ?_, ?_, ?_⟩
  · cases url with
    | none => simp [downloadMemory]
    | some u =>
      by_cases hcd : cd <;> by_cases hp1 : p1 <;> by_cases hg : g <;>
        by_cases hfc : fc <;> by_cases hpf : pf <;>
        simp [downloadMemory, hcd, hp1, hg, hfc, hpf, streamChunks_no_net]
  · intro hu hcd hp1 hpf hg
    simp only at hu hcd hp1 hpf hg
    cases url with
    | none => simp at hu
    | some u =>
      subst hcd hp1 hpf
      simp [downloadMemory, hg]
  · intro pre post hu hcd hp1 hpf hg hfc hchunks hpre
    simp only at hu hcd hp1 hpf hg hfc hchunks
    cases url with
    | none => simp at hu
    | some u =>
      subst hcd hp1 hpf hg hfc hchunks
      simp only [downloadMemory, Bool.not_true]
      rw [streamChunks_chunk_error fl pre post hpre]
      simp
  · intro hu hcd hp1 hg hfc
    simp only at hu hcd hp1 hg hfc
    cases url with
    | none => simp at hu
    | some u =>
      subst hcd hp1 hg hfc
      simp [downloadMemory]

/-- The download environment of the witness: a present URL whose GET
fails, with all local operations succeeding. -/
def dlEnvGetFail : DlEnv :=
  { url := some "https://cf-st.sc-cdn.example/m1", createDirOk := true,
    persistDownloadingOk := true, getOk := false, fileCreateOk := true,
    chunks := [], flushOk := true, persistFinalOk := true }

/-- C10 witness: on an immediate GET failure the memory ends persisted
as `Failed` and `download_memory` returns `Ok`. -/
theorem download_memory_error_policy_witness :
    downloadMemory dlEnvGetFail =
      (Except.ok (), [DownloadStatus.Downloading, DownloadStatus.Failed]) :=
  (download_memory_error_policy dlEnvGetFail).2.1 rfl rfl rfl rfl rfl

end SnapExplorer
